import Mathlib

attribute [local semireducible] Rat.add Rat.mul Rat.sub Rat.inv

/-!
Verification of the scrape-and-normalize pipeline of the crypto-etf-dashboard
repository (`src/crypto_etf_flows.py`).  The embedding below translates the
three pure helpers of that file — `_to_millions_number`, `_pick_flows_table`
and the parse/reshape/sort body of `fetch_farside_flows` — into executable
Lean definitions.  Python floats are modelled as exact rationals extended with
the IEEE special values that the string parser `float(...)` can produce;
rounding and overflow of finite arithmetic are not modelled.  The external
effects of `fetch_farside_flows` (HTTP, `pd.read_html`, `pd.to_datetime`) are
inputs of the model: each URL variant's outcome is given as data, and date
parsing is an arbitrary function `String → Option ℤ`.
-/

/-- A Python float as produced by this pipeline: an exact rational for the
finite case plus the special values that `float("inf")` / `float("nan")`
return.  Finite arithmetic is treated as exact. -/
inductive PyFloat where
  | finite (q : ℚ)
  | inf
  | negInf
  | nan
deriving DecidableEq

/-- Negation on `PyFloat` (used only to state sign properties). -/
def PyFloat.neg : PyFloat → PyFloat
  | .finite q => .finite (-q)
  | .inf => .negInf
  | .negInf => .inf
  | .nan => .nan

/-- Finiteness predicate on `PyFloat`. -/
def PyFloat.isFinite : PyFloat → Bool
  | .finite _ => true
  | _ => false

/-- The whitespace characters removed by Python `str.strip()` (ASCII range;
the cell strings of this source contain no other Unicode whitespace). -/
def isPySpace (c : Char) : Bool :=
  c == ' ' || c == '\t' || c == '\n' || c == '\r' || c == '\x0b' || c == '\x0c'

/-- Python `str.strip()` on a character list. -/
def pyStripL (cs : List Char) : List Char :=
  ((cs.dropWhile isPySpace).reverse.dropWhile isPySpace).reverse

/-- Python `str.lower()` on a character list (`Char.toLower` agrees with
Python on the ASCII characters occurring here and fixes everything else). -/
def pyLowerL (cs : List Char) : List Char :=
  cs.map Char.toLower

/-- `str.strip()` at `String` type. -/
def pyStripS (s : String) : String :=
  String.mk (pyStripL s.toList)

/-- `str.lower()` at `String` type. -/
def pyLowerS (s : String) : String :=
  String.mk (pyLowerL s.toList)

/-- Boolean decidable prefix test on character lists. -/
def isPrefixL : List Char → List Char → Bool
  | [], _ => true
  | _ :: _, [] => false
  | p :: ps, c :: cs => p == c && isPrefixL ps cs

/-- Boolean substring test (Python's `in` on strings). -/
def containsSub (pat l : List Char) : Bool :=
  l.tails.any (fun t => isPrefixL pat t)

/-- Worker for `replaceL`; the fuel argument (always at least the length of
the list, which only shrinks) makes the recursion structural. -/
def replaceGo (pat repl : List Char) : ℕ → List Char → List Char
  | 0, l => l
  | _ + 1, [] => []
  | n + 1, c :: cs =>
    if isPrefixL pat (c :: cs) && !pat.isEmpty then
      repl ++ replaceGo pat repl n (cs.drop (pat.length - 1))
    else
      c :: replaceGo pat repl n cs

/-- Python `str.replace(pat, repl)` on character lists: replaces leftmost,
non-overlapping occurrences of `pat`. -/
def replaceL (pat repl l : List Char) : List Char :=
  replaceGo pat repl l.length l

/-- Numeric value of an ASCII digit. -/
def digitVal (c : Char) : ℕ := c.toNat - 48

/-- Value of a digit run, most significant first. -/
def natOfDigits (ds : List Char) : ℕ :=
  ds.foldl (fun a c => 10 * a + digitVal c) 0

/-- Semantics of the regex groups `(\d+(?:\.\d+)?)` and `(?:\s*([mb]))?` of
`_to_millions_number`, read at a position where a digit run starts: the
greedy integer part, an optional fractional part, and the optional scale
letter after optional whitespace.  Returns the (unsigned) decimal value and
the captured scale letter. -/
def matchNumber (cs : List Char) : ℚ × Option Char :=
  let intDs := cs.takeWhile Char.isDigit
  let rest1 := cs.dropWhile Char.isDigit
  let fracDs :=
    match rest1 with
    | '.' :: r => r.takeWhile Char.isDigit
    | _ => []
  let rest2 :=
    match rest1 with
    | '.' :: r => if (r.takeWhile Char.isDigit).isEmpty then rest1 else r.dropWhile Char.isDigit
    | _ => rest1
  let v : ℚ := (natOfDigits intDs : ℚ) + (natOfDigits fracDs : ℚ) / (10 : ℚ) ^ fracDs.length
  match rest2.dropWhile isPySpace with
  | c :: _ => if c == 'm' || c == 'b' then (v, some c) else (v, none)
  | [] => (v, none)

/-- Semantics of `re.search(r"([+-]?\d+(?:\.\d+)?)(?:\s*([mb]))?", s)`: scan
for the earliest position where the signed-number group can match (a digit,
or an ASCII sign immediately followed by a digit); return whether the sign
was `-`, the magnitude, and the scale letter; `none` when `s` has no digit. -/
def searchSigned : List Char → Option (Bool × ℚ × Option Char)
  | [] => none
  | c :: cs =>
    if c.isDigit then some (false, matchNumber (c :: cs))
    else if (c == '+' || c == '-') && (match cs with | d :: _ => d.isDigit | [] => false) then
      some (c == '-', matchNumber cs)
    else searchSigned cs

/-- Python `float(s)` for a digit-free, already lower-cased string: only the
special tokens parse (to the IEEE special values); everything else raises,
which `_to_millions_number` converts to `0.0`. -/
def fallbackFloat (s : List Char) : PyFloat :=
  if s = "inf".toList ∨ s = "+inf".toList ∨ s = "infinity".toList ∨ s = "+infinity".toList then
    .inf
  else if s = "-inf".toList ∨ s = "-infinity".toList then .negInf
  else if s = "nan".toList ∨ s = "+nan".toList ∨ s = "-nan".toList then .nan
  else .finite 0

/-- Line 47 of `crypto_etf_flows.py`: removal of currency signs, grouping
commas and `usd` labels, followed by another strip. -/
def preprocessKey (s0 : List Char) : List Char :=
  pyStripL (replaceL "usd".toList []
    (replaceL ",".toList [] (replaceL "$".toList [] s0)))

/-- Lines 50–65 of `crypto_etf_flows.py`: regex search, scale application,
and the `float(s)`-or-`0.0` fallback when the regex finds no digit. -/
def tomNumMatch (s : List Char) : PyFloat :=
  match searchSigned s with
  | some (neg, v, scale) =>
    let val : ℚ := if neg then -v else v
    .finite (if scale = some 'b' then val * 1000000000 else val * 1000000)
  | none => fallbackFloat s

/-- Body of `_to_millions_number` after the initial `.strip().lower()`
(lines 43–65 of `crypto_etf_flows.py`): placeholder check, then the
preprocessed match. -/
def tomNumKey (s0 : List Char) : PyFloat :=
  if s0 = "—".toList ∨ s0 = "-".toList ∨ s0 = "--".toList ∨ s0 = "nan".toList ∨ s0 = [] then
    .finite 0
  else
    tomNumMatch (preprocessKey s0)

/-- `_to_millions_number` (crypto_etf_flows.py lines 37–65) on a string cell:
strip, lower, then `tomNumKey`.  (The `None`/`NaN` early return of line 39
concerns non-string cells and is outside the string model.) -/
def _to_millions_number (x : String) : PyFloat :=
  tomNumKey (pyLowerL (pyStripL x.toList))

/-- A candidate table as produced by `pd.read_html`: a header row of column
labels and the data rows as cell strings.  Column access is label-based
(first column carrying the label), as in pandas. -/
structure Table where
  cols : List String
  rows : List (List String)
deriving DecidableEq

/-- Header predicate of `_pick_flows_table`: some column, stripped, equals
`"date"` case-insensitively. -/
def hasDateCol (t : Table) : Bool :=
  (t.cols.map pyStripS).any (fun c => pyLowerS c == "date")

/-- The in-place `t.columns = cols` assignment of `_pick_flows_table`:
the chosen table is returned with stripped column labels. -/
def stripTable (t : Table) : Table :=
  ⟨t.cols.map pyStripS, t.rows⟩

/-- `_pick_flows_table` (crypto_etf_flows.py lines 68–75): return the first
table with a case-insensitive `date` column (with its columns stripped),
else `None`. -/
def _pick_flows_table : List Table → Option Table
  | [] => none
  | t :: rest =>
    if hasDateCol t then some (stripTable t)
    else _pick_flows_table rest

/-- One canonical output record of the long-form dataset: a row of the
melted frame with columns `Date`, `etf`, `flow_usd`.  Dates are the abstract
values produced by the date parser. -/
structure FlowRecord where
  date : ℤ
  etf : String
  flow_usd : PyFloat
deriving DecidableEq

/-- The `drop_like` stoplist test of `fetch_farside_flows` line 101–105:
`true` when none of the stoplisted substrings occurs in the lower-cased
column name. -/
def stoplistFree (c : String) : Bool :=
  !(containsSub "total".toList (pyLowerL c.toList) ||
    containsSub "aum".toList (pyLowerL c.toList) ||
    containsSub "issuer".toList (pyLowerL c.toList) ||
    containsSub "inception".toList (pyLowerL c.toList) ||
    containsSub "fund".toList (pyLowerL c.toList) ||
    containsSub "cumulative".toList (pyLowerL c.toList))

/-- The non-`Date` columns kept by `keep_cols` (lines 102–105), in their
original order. -/
def keptColsOf (t : Table) : List String :=
  t.cols.filter (fun c => c != "Date" && stoplistFree c)

/-- Rows surviving `pd.to_datetime(..., errors="coerce")` + `dropna`
(lines 97–98), paired with their parsed date. -/
def parsedRowsOf (pd : String → Option ℤ) (t : Table) (i : ℕ) :
    List (ℤ × List String) :=
  t.rows.filterMap (fun r => (pd (r.getD i "")).map (fun d => (d, r)))

/-- The long frame built by `base.melt(id_vars=["Date"], ...)` (line 115):
one block per kept column, in column order; within a block, rows in row
order; `flow_usd` is the normalizer applied to the corresponding cell
(line 112). -/
def meltedOf (pd : String → Option ℤ) (t : Table) (i : ℕ) : List FlowRecord :=
  (keptColsOf t).flatMap (fun c =>
    (parsedRowsOf pd t i).map (fun p =>
      ⟨p.1, c, _to_millions_number (p.2.getD (t.cols.findIdx (fun c' => c' == c)) "")⟩))

/-- Comparison used by `long_df.sort_values("Date")`: order by date only. -/
def dateLe (a b : FlowRecord) : Prop := a.date ≤ b.date

instance dateLeDecidable : DecidableRel dateLe :=
  fun a b => inferInstanceAs (Decidable (a.date ≤ b.date))

instance dateLeTotal : IsTotal FlowRecord dateLe :=
  ⟨fun a b => Int.le_total a.date b.date⟩

instance dateLeTrans : IsTrans FlowRecord dateLe :=
  ⟨fun _ _ _ h1 h2 => le_trans h1 h2⟩

/-- Lines 96–117 of `fetch_farside_flows` applied to the picked table:
coerce and drop unparseable dates, drop stoplisted columns, normalize cells,
melt to long form and sort by `Date`.  `none` models the `KeyError` raised
by `base["Date"]` when no column is literally named `"Date"`.  The sort is
modelled as a stable sort; pandas' default sort is likewise stable on the
small inputs used in the concrete theorems below. -/
def processTable (pd : String → Option ℤ) (t : Table) : Option (List FlowRecord) :=
  (t.cols.findIdx? (fun c => c == "Date")).map
    (fun i => List.insertionSort dateLe (meltedOf pd t i))

/-- The externally determined outcome of one URL variant's fetch:
the HTTP request (or `raise_for_status`) raised, `pd.read_html` raised
(e.g. no tables in the document), or a list of candidate tables was
obtained. -/
inductive FetchOutcome where
  | httpError (e : String)
  | readHtmlError (e : String)
  | ok (tables : List Table)
deriving DecidableEq

/-- Result of the loop body of `fetch_farside_flows` for one variant:
a successful dataset (`return long_df`), a caught exception (`except
Exception as e` — updates `last_error`), or a silent `continue` (no tables,
no qualifying table, or an empty qualifying table — `last_error` kept). -/
inductive VariantResult where
  | success (recs : List FlowRecord)
  | exn (e : String)
  | skip
deriving DecidableEq

/-- The body of the `for url in JINA_URLS` loop (lines 83–120) for one
variant, given that variant's fetch outcome. -/
def attemptVariant (pd : String → Option ℤ) : FetchOutcome → VariantResult
  | .httpError e => .exn e
  | .readHtmlError e => .exn e
  | .ok tables =>
    if tables.isEmpty then .skip
    else
      match _pick_flows_table tables with
      | none => .skip
      | some base =>
        if base.rows.isEmpty then .skip
        else
          match processTable pd base with
          | none => .exn "KeyError: Date"
          | some recs => .success recs

/-- The variant loop with the `last_error` accumulator. -/
def fetchGo (pd : String → Option ℤ) :
    List FetchOutcome → Option String → Except (Option String) (List FlowRecord)
  | [], lastError => .error lastError
  | o :: rest, lastError =>
    match attemptVariant pd o with
    | .success recs => .ok recs
    | .exn e => fetchGo pd rest (some e)
    | .skip => fetchGo pd rest lastError

/-- `fetch_farside_flows` (lines 79–124): try each variant in order; return
the first successful long-form dataset; if none succeeds, raise
`RuntimeError(f"All sources failed. Last error: {last_error}")`, modelled as
`Except.error` carrying the final value of `last_error`. -/
def fetch_farside_flows (pd : String → Option ℤ)
    (outcomes : List FetchOutcome) : Except (Option String) (List FlowRecord) :=
  fetchGo pd outcomes none

/-- The final value of the `last_error` variable after a run in which no
variant succeeded: the error of the last variant whose attempt raised an
exception (`none` when no variant raised). -/
def lastErrOf (pd : String → Option ℤ) (outcomes : List FetchOutcome) : Option String :=
  outcomes.foldl
    (fun acc o => match attemptVariant pd o with | .exn e => some e | _ => acc) none

instance exceptDecEq {ε α : Type _} [DecidableEq ε] [DecidableEq α] :
    DecidableEq (Except ε α) := fun a b =>
  match a, b with
  | .error e, .error f =>
    if h : e = f then .isTrue (by rw [h]) else .isFalse (by simp [h])
  | .error _, .ok _ => .isFalse (by simp)
  | .ok _, .error _ => .isFalse (by simp)
  | .ok x, .ok y =>
    if h : x = y then .isTrue (by rw [h]) else .isFalse (by simp [h])

/-- Date parser used for the concrete instances: the two tokens `d1`, `d2`
parse to the (chronologically ordered) dates `1 < 2`, everything else fails
to parse. -/
def pdTest : String → Option ℤ :=
  fun s => if s = "d1" then some 1 else if s = "d2" then some 2 else none

/-- `true` exactly on the `success` outcome of a variant attempt. -/
def isSuccessR : VariantResult → Bool
  | .success _ => true
  | _ => false

/-- Strict lexicographic order on strings (by code point). -/
def strLtB : List Char → List Char → Bool
  | [], [] => false
  | [], _ :: _ => true
  | _ :: _, [] => false
  | c :: cs, d :: ds => if c < d then true else if d < c then false else strLtB cs ds

/-- Claim C1's key order, from the spec's words: the `(instrument, date)`
key compares lexicographically. -/
def instrumentDateLe (a b : FlowRecord) : Prop :=
  strLtB a.etf.toList b.etf.toList = true ∨ (a.etf = b.etf ∧ a.date ≤ b.date)

instance instrumentDateLeDec : DecidableRel instrumentDateLe :=
  fun a b => inferInstanceAs
    (Decidable (strLtB a.etf.toList b.etf.toList = true ∨ (a.etf = b.etf ∧ a.date ≤ b.date)))

/-- Character shape of a plain numeral: an ASCII digit, a decimal point, or
one of the scale letters `m`/`b` (claim C5's "numeral string"). -/
def plainNumChar (x : Char) : Bool :=
  x.isDigit || x == '.' || x == 'm' || x == 'b'

/-- Length of a constant-shape `flatMap` of `map`s. -/
theorem length_flatMap_const {α β γ : Type _} (l : List α) (m : List β) (f : α → β → γ) :
    (l.flatMap (fun a => m.map (f a))).length = l.length * m.length := by
  induction l with
  | nil => simp
  | cons a l ih => simp [ih, Nat.succ_mul, Nat.add_comm]

/-- A successful variant attempt is exactly a sorted melt of some picked
table with a `Date` column. -/
theorem attemptVariant_success_eq (pd : String → Option ℤ) (o : FetchOutcome)
    (recs : List FlowRecord) (h : attemptVariant pd o = .success recs) :
    ∃ (t : Table) (i : ℕ), t.cols.findIdx? (fun c => c == "Date") = some i ∧
      recs = List.insertionSort dateLe (meltedOf pd t i) := by
  cases o with
  | httpError e => simp [attemptVariant] at h
  | readHtmlError e => simp [attemptVariant] at h
  | ok tables =>
    simp only [attemptVariant] at h
    split at h
    · simp at h
    · split at h
      · simp at h
      · rename_i base _
        split at h
        · simp at h
        · split at h
          · simp at h
          · rename_i recs' hproc
            refine ⟨base, ?_⟩
            unfold processTable at hproc
            obtain ⟨i, hi, hrecs⟩ := Option.map_eq_some'.mp hproc
            cases h
            exact ⟨i, hi, hrecs.symm⟩

/-- A successful overall fetch comes from a successful attempt of one of the
variants. -/
theorem fetchGo_ok (pd : String → Option ℤ) :
    ∀ (outcomes : List FetchOutcome) (acc : Option String) (recs : List FlowRecord),
      fetchGo pd outcomes acc = .ok recs →
      ∃ o ∈ outcomes, attemptVariant pd o = .success recs := by
  intro outcomes
  induction outcomes with
  | nil => intro acc recs h; simp [fetchGo] at h
  | cons o rest ih =>
    intro acc recs h
    unfold fetchGo at h
    split at h
    · rename_i recs' hsucc
      cases h
      exact ⟨o, List.mem_cons_self o rest, hsucc⟩
    · obtain ⟨o', ho', hs⟩ := ih _ _ h
      exact ⟨o', List.mem_cons_of_mem o ho', hs⟩
    · obtain ⟨o', ho', hs⟩ := ih _ _ h
      exact ⟨o', List.mem_cons_of_mem o ho', hs⟩

/-- When every variant fails, the loop ends in the `RuntimeError`, and the
carried `last_error` is the fold of the caught exceptions over the initial
accumulator. -/
theorem fetchGo_all_fail (pd : String → Option ℤ) :
    ∀ (outcomes : List FetchOutcome) (acc : Option String),
      (∀ x ∈ outcomes, isSuccessR (attemptVariant pd x) = false) →
      fetchGo pd outcomes acc = .error
        (outcomes.foldl
          (fun a o => match attemptVariant pd o with | .exn e => some e | _ => a) acc) := by
  intro outcomes
  induction outcomes with
  | nil => intro acc _; rfl
  | cons o rest ih =>
    intro acc hfail
    have ho := hfail o (List.mem_cons_self o rest)
    have hrest : ∀ x ∈ rest, isSuccessR (attemptVariant pd x) = false :=
      fun x hx => hfail x (List.mem_cons_of_mem o hx)
    unfold fetchGo
    cases hao : attemptVariant pd o with
    | success recs => rw [hao] at ho; simp [isSuccessR] at ho
    | exn e => simp only [List.foldl_cons, hao]; exact ih (some e) hrest
    | skip => simp only [List.foldl_cons, hao]; exact ih acc hrest

/-- Failing variants before a successful one are skipped over, whatever the
accumulated error. -/
theorem fetchGo_skip_prefix (pd : String → Option ℤ) (o : FetchOutcome)
    (post : List FetchOutcome) (recs : List FlowRecord)
    (hsucc : attemptVariant pd o = .success recs) :
    ∀ (pre : List FetchOutcome) (acc : Option String),
      (∀ x ∈ pre, isSuccessR (attemptVariant pd x) = false) →
      fetchGo pd (pre ++ o :: post) acc = .ok recs := by
  intro pre
  induction pre with
  | nil => intro acc _; simp [fetchGo, hsucc]
  | cons x rest ih =>
    intro acc hfail
    have hx := hfail x (List.mem_cons_self x rest)
    have hrest : ∀ y ∈ rest, isSuccessR (attemptVariant pd y) = false :=
      fun y hy => hfail y (List.mem_cons_of_mem x hy)
    rw [List.cons_append]
    unfold fetchGo
    cases hax : attemptVariant pd x with
    | success recs' => rw [hax] at hx; simp [isSuccessR] at hx
    | exn e => exact ih (some e) hrest
    | skip => exact ih acc hrest
/-- C1 (counterexample): on a 2×2 flows table the returned dataset is NOT
sorted by `(instrument, date)`: the records `(B, d1)` and `(A, d2)` are
adjacent in the output (which `sort_values("Date")` orders by date only),
and their `(etf, Date)` keys decrease. -/
theorem c1_counterexample :
    fetch_farside_flows pdTest
        [.ok [⟨["Date", "A", "B"], [["d1", "1", "2"], ["d2", "3", "4"]]⟩]] =
      .ok [⟨1, "A", .finite 1000000⟩, ⟨1, "B", .finite 2000000⟩,
           ⟨2, "A", .finite 3000000⟩, ⟨2, "B", .finite 4000000⟩] ∧
    ¬ List.Chain' instrumentDateLe
        [⟨1, "A", .finite 1000000⟩, ⟨1, "B", .finite 2000000⟩,
         ⟨2, "A", .finite 3000000⟩, ⟨2, "B", .finite 4000000⟩] := by
  constructor
  · decide
  · intro h
    rw [List.chain'_cons, List.chain'_cons] at h
    rcases h.2.1 with h2 | ⟨h2, -⟩
    · exact absurd h2 (by decide)
    · exact absurd h2 (by decide)

/-- C1 (amended): every dataset returned by a successful
`fetch_farside_flows` is sorted by `Date` ascending — for every pair of
adjacent records, the earlier date is less than or equal to the later one.
(The code sorts with `sort_values("Date")` only; no instrument-major order
is established.) -/
theorem c1_sorted_by_date_amended (pd : String → Option ℤ)
    (outcomes : List FetchOutcome) (recs : List FlowRecord)
    (h : fetch_farside_flows pd outcomes = .ok recs) :
    List.Chain' dateLe recs := by
  obtain ⟨o, _, hs⟩ := fetchGo_ok pd outcomes none recs h
  obtain ⟨t, i, _, hrecs⟩ := attemptVariant_success_eq pd o recs hs
  subst hrecs
  exact (List.sorted_insertionSort dateLe _).chain'

/-- C1 (witness): the amended sort invariant at a concrete fetch. -/
theorem c1_witness :
    List.Chain' dateLe
      [⟨1, "A", .finite 1000000⟩, ⟨1, "B", .finite 2000000⟩,
       ⟨2, "A", .finite 3000000⟩, ⟨2, "B", .finite 4000000⟩] :=
  c1_sorted_by_date_amended pdTest
    [.ok [⟨["Date", "A", "B"], [["d1", "1", "2"], ["d2", "3", "4"]]⟩]] _ (by decide)

/-- C2 (counterexample): a candidate whose header has a `Date` column but
only ONE other column (3 or fewer) is still selected by
`_pick_flows_table` — the claimed minimum-column threshold does not exist
in the code. -/
theorem c2_counterexample :
    _pick_flows_table [Table.mk ["Date", "X"] [["d", "1"]]] =
      some (Table.mk ["Date", "X"] [["d", "1"]]) ∧
    (Table.mk ["Date", "X"] [["d", "1"]]).cols.length - 1 ≤ 3 := by
  constructor
  · decide
  · decide

/-- C2 (amended): the table locator returns exactly the first candidate (in
source order) whose header row contains a case-insensitive, whitespace-
trimmed column named `"date"`, with its column labels trimmed; there is no
minimum threshold on the number of other columns. -/
theorem c2_locator_first_date_no_threshold (tables : List Table) :
    _pick_flows_table tables = (tables.find? hasDateCol).map stripTable := by
  induction tables with
  | nil => rfl
  | cons t rest ih =>
    simp only [_pick_flows_table, List.find?]
    cases h : hasDateCol t
    · simp [h, ih]
    · simp [h]

/-- C3 (counterexample): when variant 1 raises a network error and the last
variant fails WITHOUT raising (a fetched document whose only table has no
`date` column), the final error carries variant 1's exception `E1`, not the
last variant's failure — the raised error does not carry the last variant's
error. -/
theorem c3_counterexample :
    fetch_farside_flows pdTest
        [.httpError "E1", .ok [⟨["Foo", "Bar"], [["1", "2"]]⟩]] =
      .error (some "E1") ∧
    attemptVariant pdTest (.ok [⟨["Foo", "Bar"], [["1", "2"]]⟩]) = .skip := by
  constructor
  · decide
  · decide

/-- C3 (amended): (1) if every variant before some variant fails (by
exception or silently) and that variant succeeds, the fetch returns that
variant's dataset (the code attaches no provenance metadata to it); (2) if
every variant fails, the fetch raises exactly one error, carrying the last
CAUGHT EXCEPTION — the error of the last variant that raised, which is not
necessarily the last variant, and `None` if no variant raised. -/
theorem c3_fallback_and_exhaustion :
    (∀ (pd : String → Option ℤ) (pre : List FetchOutcome) (o : FetchOutcome)
        (post : List FetchOutcome) (recs : List FlowRecord),
        (∀ x ∈ pre, isSuccessR (attemptVariant pd x) = false) →
        attemptVariant pd o = .success recs →
        fetch_farside_flows pd (pre ++ o :: post) = .ok recs) ∧
    (∀ (pd : String → Option ℤ) (outcomes : List FetchOutcome),
        (∀ x ∈ outcomes, isSuccessR (attemptVariant pd x) = false) →
        fetch_farside_flows pd outcomes = .error (lastErrOf pd outcomes)) := by
  constructor
  · intro pd pre o post recs hfail hsucc
    exact fetchGo_skip_prefix pd o post recs hsucc pre none hfail
  · intro pd outcomes hfail
    exact fetchGo_all_fail pd outcomes none hfail

/-- C3 (witness): the amended behavior at concrete inputs — variant 2
succeeds after variant 1's network error; and with two exception-failing
variants the raised error carries the second (last-raising) one. -/
theorem c3_witness :
    fetch_farside_flows pdTest
        ([FetchOutcome.httpError "E1"] ++
          FetchOutcome.ok [⟨["Date", "A"], [["d1", "5"]]⟩] :: []) =
      .ok [⟨1, "A", .finite 5000000⟩] ∧
    fetch_farside_flows pdTest [.httpError "E1", .httpError "E2"] =
      .error (some "E2") := by
  constructor
  · exact c3_fallback_and_exhaustion.1 pdTest [.httpError "E1"] _ [] _
      (by decide) (by decide)
  · have h := c3_fallback_and_exhaustion.2 pdTest
      [.httpError "E1", .httpError "E2"] (by decide)
    rw [h]; decide

/-- C4 (counterexample): `_to_millions_number "1,234"` is not `1234`: there
is no `default_scale` parameter, and a suffixless numeral is scaled by one
million. -/
theorem c4_counterexample :
    ¬ _to_millions_number "1,234" = .finite 1234 := by
  decide

/-- C4 (amended): the normalizer has no `default_scale` parameter; a bare,
suffixless numeral (with grouping commas stripped) is always interpreted in
millions: `"1,234"` and `"1234"` both normalize to `1 234 000 000`. -/
theorem c4_bare_numeral_millions :
    _to_millions_number "1,234" = .finite 1234000000 ∧
    _to_millions_number "1234" = .finite 1234000000 := by
  constructor
  · decide
  · decide

/-- Characters outside the upper-case ASCII range are fixed by
`Char.toLower`. -/
theorem toLower_eq_self_of_notUpper (c : Char) (h : c.toNat < 65 ∨ 90 < c.toNat) :
    c.toLower = c := by
  unfold Char.toLower
  have hn : ¬(c.toNat ≥ 65 ∧ c.toNat ≤ 90) := by omega
  simp [hn]

/-- Digits are outside the upper-case ASCII range. -/
theorem isDigit_toNat (c : Char) (h : c.isDigit = true) :
    48 ≤ c.toNat ∧ c.toNat ≤ 57 := by
  simp only [Char.isDigit, Bool.and_eq_true, decide_eq_true_eq] at h
  exact ⟨h.1, h.2⟩

/-- `Char.toLower` fixes digits. -/
theorem toLower_of_isDigit (c : Char) (h : c.isDigit = true) : c.toLower = c :=
  toLower_eq_self_of_notUpper c (Or.inl (by have := isDigit_toNat c h; omega))

/-- On the upper-case ASCII range, `Char.toLower` adds 32 to the code. -/
theorem toLower_toNat_of_upper (c : Char) (h1 : 65 ≤ c.toNat) (h2 : c.toNat ≤ 90) :
    (c.toLower).toNat = c.toNat + 32 := by
  unfold Char.toLower
  have hc : c.toNat ≥ 65 ∧ c.toNat ≤ 90 := ⟨h1, h2⟩
  simp only [hc, and_self, if_true]
  rw [Char.ofNat, dif_pos (Or.inl (by omega : c.toNat + 32 < 55296))]
  rfl

/-- Characters with equal codes are equal. -/
theorem char_eq_of_toNat_eq (a b : Char) (h : a.toNat = b.toNat) : a = b := by
  rw [← Char.ofNat_toNat a, h, Char.ofNat_toNat]

/-- `Char.toLower` maps non-digits to non-digits. -/
theorem toLower_isDigit_false (c : Char) (h : c.isDigit = false) :
    (c.toLower).isDigit = false := by
  by_cases hc : 65 ≤ c.toNat ∧ c.toNat ≤ 90
  · have ht := toLower_toNat_of_upper c hc.1 hc.2
    cases hd : (c.toLower).isDigit with
    | false => rfl
    | true => have := isDigit_toNat _ hd; omega
  · rw [toLower_eq_self_of_notUpper c (by omega)]
    exact h

/-- `Char.toLower` produces `'n'` only from `'n'` or `'N'`. -/
theorem toLower_ne_n (c : Char) (h1 : c ≠ 'n') (h2 : c ≠ 'N') : c.toLower ≠ 'n' := by
  by_cases hc : 65 ≤ c.toNat ∧ c.toNat ≤ 90
  · intro hEq
    have ht := toLower_toNat_of_upper c hc.1 hc.2
    rw [hEq] at ht
    have h78 : c.toNat = 78 := by
      have hn : ('n').toNat = 110 := by decide
      omega
    exact h2 (char_eq_of_toNat_eq c 'N' (by rw [h78]; decide))
  · rw [toLower_eq_self_of_notUpper c (by omega)]
    exact h1

/-- Characters with codes at least 48 (in particular digits) are not
Python whitespace. -/
theorem isPySpace_false_of_ge (c : Char) (h : 33 ≤ c.toNat) : isPySpace c = false := by
  unfold isPySpace
  have h1 : c ≠ ' ' := fun hEq => by subst hEq; exact absurd h (by decide)
  have h2 : c ≠ '\t' := fun hEq => by subst hEq; exact absurd h (by decide)
  have h3 : c ≠ '\n' := fun hEq => by subst hEq; exact absurd h (by decide)
  have h4 : c ≠ '\r' := fun hEq => by subst hEq; exact absurd h (by decide)
  have h5 : c ≠ '\x0b' := fun hEq => by subst hEq; exact absurd h (by decide)
  have h6 : c ≠ '\x0c' := fun hEq => by subst hEq; exact absurd h (by decide)
  simp [h1, h2, h3, h4, h5, h6]

/-- `dropWhile` is the identity on lists whose head fails the predicate. -/
theorem dropWhile_eq_self_of_all {p : Char → Bool} (l : List Char)
    (h : ∀ c ∈ l, p c = false) : l.dropWhile p = l := by
  cases l with
  | nil => rfl
  | cons a t =>
    rw [List.dropWhile_cons, h a (List.mem_cons_self a t)]
    simp

/-- `str.strip()` is the identity on space-free lists. -/
theorem pyStripL_eq_self (l : List Char) (h : ∀ c ∈ l, isPySpace c = false) :
    pyStripL l = l := by
  unfold pyStripL
  rw [dropWhile_eq_self_of_all l h,
    dropWhile_eq_self_of_all l.reverse (fun c hc => h c (List.mem_reverse.mp hc)),
    List.reverse_reverse]

/-- `str.lower()` is the identity on lists of `toLower`-fixed characters. -/
theorem pyLowerL_eq_self (l : List Char) (h : ∀ c ∈ l, c.toLower = c) :
    pyLowerL l = l := by
  unfold pyLowerL
  induction l with
  | nil => rfl
  | cons a t ih =>
    rw [List.map_cons, h a (List.mem_cons_self a t),
      ih (fun c hc => h c (List.mem_cons_of_mem a hc))]

/-- `replaceGo` is the identity when the pattern's first character does not
occur in the list. -/
theorem replaceGo_eq_self (p : Char) (ps repl : List Char) :
    ∀ (n : ℕ) (l : List Char), (∀ c ∈ l, c ≠ p) → replaceGo (p :: ps) repl n l = l := by
  intro n
  induction n with
  | zero => intro l _; rfl
  | succ n ih =>
    intro l h
    cases l with
    | nil => rfl
    | cons a t =>
      have hap : a ≠ p := h a (List.mem_cons_self a t)
      have hpre : isPrefixL (p :: ps) (a :: t) = false := by
        unfold isPrefixL
        rw [beq_eq_false_iff_ne.mpr (Ne.symm hap), Bool.false_and]
      rw [replaceGo, hpre, Bool.false_and, if_neg (by simp),
        ih t (fun c hc => h c (List.mem_cons_of_mem a hc))]

/-- `str.replace(pat, "")` is the identity when the pattern's first
character does not occur. -/
theorem replaceL_eq_self (p : Char) (ps repl : List Char) (l : List Char)
    (h : ∀ c ∈ l, c ≠ p) : replaceL (p :: ps) repl l = l :=
  replaceGo_eq_self p ps repl l.length l h

/-- Characters of `replaceGo pat [] _ l` come from `l`. -/
theorem mem_of_mem_replaceGo (pat : List Char) :
    ∀ (n : ℕ) (l : List Char) (c : Char), c ∈ replaceGo pat [] n l → c ∈ l := by
  intro n
  induction n with
  | zero => intro l c h; exact h
  | succ n ih =>
    intro l c h
    cases l with
    | nil => exact h
    | cons a t =>
      rw [replaceGo] at h
      split at h
      · rw [List.nil_append] at h
        exact List.mem_cons_of_mem a ((List.drop_sublist _ _).subset (ih _ c h))
      · rcases List.mem_cons.mp h with h | h
        · exact h ▸ List.mem_cons_self a t
        · exact List.mem_cons_of_mem a (ih t c h)

/-- A true `isPrefixL` test decomposes the list as the pattern followed by
the rest. -/
theorem isPrefixL_append (p : List Char) :
    ∀ (l : List Char), isPrefixL p l = true → l = p ++ l.drop p.length := by
  induction p with
  | nil => intro l _; simp
  | cons q qs ih =>
    intro l h
    cases l with
    | nil => simp [isPrefixL] at h
    | cons a t =>
      rw [isPrefixL, Bool.and_eq_true, beq_iff_eq] at h
      obtain ⟨hq, hrest⟩ := h
      subst hq
      have ht := ih t hrest
      calc q :: t = q :: (qs ++ t.drop qs.length) := by rw [← ht]
        _ = (q :: qs) ++ (q :: t).drop (q :: qs).length := by
            rw [List.length_cons, List.drop_succ_cons, List.cons_append]

/-- A character that is in `l` but not in the pattern survives
`replaceGo pat [] _ l`. -/
theorem mem_replaceGo_of_mem (q : Char) (qs : List Char) :
    ∀ (n : ℕ) (l : List Char) (c : Char), c ∈ l → c ∉ q :: qs →
      c ∈ replaceGo (q :: qs) [] n l := by
  intro n
  induction n with
  | zero => intro l c hc _; exact hc
  | succ n ih =>
    intro l c hc hcp
    cases l with
    | nil => exact hc
    | cons a t =>
      rw [replaceGo]
      split
      · rename_i hcond
        rw [Bool.and_eq_true] at hcond
        have hpre := isPrefixL_append (q :: qs) (a :: t) hcond.1
        rw [List.nil_append]
        rw [hpre] at hc
        rcases List.mem_append.mp hc with h | h
        · exact absurd h hcp
        · rw [List.length_cons, List.drop_succ_cons] at h
          have hlen : (q :: qs).length - 1 = qs.length := by simp
          rw [hlen]
          exact ih _ c h hcp
      · rcases List.mem_cons.mp hc with h | h
        · exact h ▸ List.mem_cons_self a _
        · exact List.mem_cons_of_mem a (ih t c h hcp)

/-- Characters of the stripped list come from the original. -/
theorem mem_of_mem_pyStripL (l : List Char) (c : Char) (h : c ∈ pyStripL l) :
    c ∈ l := by
  unfold pyStripL at h
  have h1 := List.mem_reverse.mp h
  have h2 := (List.dropWhile_sublist _ (l := (l.dropWhile isPySpace).reverse)).subset h1
  exact (List.dropWhile_sublist _ (l := l)).subset (List.mem_reverse.mp h2)

/-- A non-space character survives `dropWhile isPySpace`. -/
theorem mem_dropWhile_of_mem (l : List Char) (c : Char) (hc : c ∈ l)
    (hs : isPySpace c = false) : c ∈ l.dropWhile isPySpace := by
  rw [← List.takeWhile_append_dropWhile (p := isPySpace) (l := l)] at hc
  rcases List.mem_append.mp hc with h | h
  · rw [List.mem_takeWhile_imp h] at hs
    cases hs
  · exact h

/-- A non-space character survives `str.strip()`. -/
theorem mem_pyStripL_of_mem (l : List Char) (c : Char) (hc : c ∈ l)
    (hs : isPySpace c = false) : c ∈ pyStripL l := by
  unfold pyStripL
  rw [List.mem_reverse]
  exact mem_dropWhile_of_mem _ c
    (List.mem_reverse.mpr (mem_dropWhile_of_mem l c hc hs)) hs

/-- `re.search` finds nothing on a digit-free list. -/
theorem searchSigned_eq_none (l : List Char) (h : ∀ c ∈ l, c.isDigit = false) :
    searchSigned l = none := by
  induction l with
  | nil => rfl
  | cons a t ih =>
    have ha := h a (List.mem_cons_self a t)
    have hrest : ∀ c ∈ t, c.isDigit = false :=
      fun c hc => h c (List.mem_cons_of_mem a hc)
    simp only [searchSigned, ha, Bool.false_eq_true, if_false]
    cases t with
    | nil => simp [searchSigned]
    | cons d r =>
      have hd : d.isDigit = false := hrest d (List.mem_cons_self d r)
      simp only [hd, Bool.and_false, Bool.false_eq_true, if_false]
      exact ih hrest

/-- `re.search` finds a match as soon as the list contains a digit. -/
theorem searchSigned_isSome (l : List Char) (h : ∃ c ∈ l, c.isDigit = true) :
    (searchSigned l).isSome = true := by
  induction l with
  | nil => obtain ⟨c, hc, -⟩ := h; exact absurd hc (List.not_mem_nil c)
  | cons a t ih =>
    obtain ⟨c, hc, hdig⟩ := h
    simp only [searchSigned]
    by_cases ha : a.isDigit = true
    · simp [ha]
    · have ha' : a.isDigit = false := Bool.eq_false_iff.mpr ha
      simp only [ha', Bool.false_eq_true, if_false]
      split
      · rfl
      · apply ih
        refine ⟨c, ?_, hdig⟩
        rcases List.mem_cons.mp hc with h | h
        · rw [h] at hdig; exact absurd hdig ha
        · exact h

/-- Plain-numeral characters pass untouched through strip, lower and the
currency/grouping removals. -/
theorem plainNumChar_facts (x : Char) (h : plainNumChar x = true) :
    isPySpace x = false ∧ x.toLower = x ∧ x ≠ '$' ∧ x ≠ ',' ∧ x ≠ 'u' := by
  unfold plainNumChar at h
  simp only [Bool.or_eq_true, beq_iff_eq] at h
  rcases h with ((hd | h) | h) | h
  · have hb := isDigit_toNat x hd
    refine ⟨isPySpace_false_of_ge x (by omega), toLower_of_isDigit x hd, ?_, ?_, ?_⟩
    · intro hEq; subst hEq; exact absurd hd (by decide)
    · intro hEq; subst hEq; exact absurd hd (by decide)
    · intro hEq; subst hEq; exact absurd hd (by decide)
  · subst h; exact ⟨by decide, by decide, by decide, by decide, by decide⟩
  · subst h; exact ⟨by decide, by decide, by decide, by decide, by decide⟩
  · subst h; exact ⟨by decide, by decide, by decide, by decide, by decide⟩

/-- Evaluation of `tomNumKey` on a non-placeholder key that the
currency/grouping removals leave unchanged. -/
theorem tomNumKey_eval (l : List Char)
    (hne : ¬(l = "—".toList ∨ l = "-".toList ∨ l = "--".toList ∨
      l = "nan".toList ∨ l = []))
    (hrep : preprocessKey l = l) :
    tomNumKey l = tomNumMatch l := by
  unfold tomNumKey
  rw [if_neg hne, hrep]

/-- The identity of the preprocessing chain on sign-and-numeral lists. -/
theorem preprocess_eq_self (l : List Char)
    (h1 : ∀ x ∈ l, x ≠ '$') (h2 : ∀ x ∈ l, x ≠ ',') (h3 : ∀ x ∈ l, x ≠ 'u')
    (h4 : ∀ x ∈ l, isPySpace x = false) :
    preprocessKey l = l := by
  unfold preprocessKey
  rw [show "$".toList = ['$'] from rfl, show ",".toList = [','] from rfl,
    show "usd".toList = ['u', 's', 'd'] from rfl]
  rw [replaceL_eq_self '$' [] [] l h1, replaceL_eq_self ',' [] [] l h2,
    replaceL_eq_self 'u' ['s', 'd'] [] l h3]
  exact pyStripL_eq_self l h4

/-- C5 (amended): for every plain numeral `c :: cs` (digits, optional
decimal point, optional `m`/`b` scale letter), the ASCII leading `-`
negates the normalized value and a leading `+` is ignored, but the Unicode
minus sign `−` is NOT recognised as a sign: it is skipped by `re.search`
and the value keeps its positive magnitude. -/
theorem c5_ascii_sign_only (c : Char) (cs : List Char)
    (hd : c.isDigit = true) (hall : (c :: cs).all plainNumChar = true) :
    _to_millions_number (String.mk ('-' :: c :: cs)) =
      PyFloat.neg (_to_millions_number (String.mk (c :: cs))) ∧
    _to_millions_number (String.mk ('+' :: c :: cs)) =
      _to_millions_number (String.mk (c :: cs)) ∧
    _to_millions_number (String.mk ('−' :: c :: cs)) =
      _to_millions_number (String.mk (c :: cs)) := by
  rw [List.all_eq_true] at hall
  have hfacts : ∀ x ∈ c :: cs,
      isPySpace x = false ∧ x.toLower = x ∧ x ≠ '$' ∧ x ≠ ',' ∧ x ≠ 'u' :=
    fun x hx => plainNumChar_facts x (hall x hx)
  have hsignf : ∀ (a : Char), a = '-' ∨ a = '+' ∨ a = '−' →
      isPySpace a = false ∧ a.toLower = a ∧ a ≠ '$' ∧ a ≠ ',' ∧ a ≠ 'u' := by
    intro a ha
    rcases ha with rfl | rfl | rfl
    · exact ⟨by decide, by decide, by decide, by decide, by decide⟩
    · exact ⟨by decide, by decide, by decide, by decide, by decide⟩
    · exact ⟨by decide, by decide, by decide, by decide, by decide⟩
  have hext : ∀ (a : Char), a = '-' ∨ a = '+' ∨ a = '−' →
      ∀ x ∈ a :: c :: cs,
        isPySpace x = false ∧ x.toLower = x ∧ x ≠ '$' ∧ x ≠ ',' ∧ x ≠ 'u' := by
    intro a ha x hx
    rcases List.mem_cons.mp hx with rfl | hx'
    · exact hsignf x ha
    · exact hfacts x hx'
  have hkey : ∀ (l : List Char),
      (∀ x ∈ l, isPySpace x = false ∧ x.toLower = x ∧ x ≠ '$' ∧ x ≠ ',' ∧ x ≠ 'u') →
      pyLowerL (pyStripL l) = l := by
    intro l hl
    rw [pyStripL_eq_self l (fun x hx => (hl x hx).1)]
    exact pyLowerL_eq_self l (fun x hx => (hl x hx).2.1)
  have hrep : ∀ (l : List Char),
      (∀ x ∈ l, isPySpace x = false ∧ x.toLower = x ∧ x ≠ '$' ∧ x ≠ ',' ∧ x ≠ 'u') →
      preprocessKey l = l := by
    intro l hl
    exact preprocess_eq_self l (fun x hx => (hl x hx).2.2.1)
      (fun x hx => (hl x hx).2.2.2.1) (fun x hx => (hl x hx).2.2.2.2)
      (fun x hx => (hl x hx).1)
  have hne0 : ¬(c :: cs = "—".toList ∨ c :: cs = "-".toList ∨
      c :: cs = "--".toList ∨ c :: cs = "nan".toList ∨ c :: cs = []) := by
    intro hor
    rcases hor with h | h | h | h | h
    · rw [show "—".toList = ['—'] from rfl] at h
      injection h with h1 _
      subst h1; exact absurd hd (by decide)
    · rw [show "-".toList = ['-'] from rfl] at h
      injection h with h1 _
      subst h1; exact absurd hd (by decide)
    · rw [show "--".toList = ['-', '-'] from rfl] at h
      injection h with h1 _
      subst h1; exact absurd hd (by decide)
    · rw [show "nan".toList = ['n', 'a', 'n'] from rfl] at h
      injection h with h1 _
      subst h1; exact absurd hd (by decide)
    · exact List.cons_ne_nil c cs h
  have hneS : ∀ (a : Char), a = '-' ∨ a = '+' ∨ a = '−' →
      ¬(a :: c :: cs = "—".toList ∨ a :: c :: cs = "-".toList ∨
        a :: c :: cs = "--".toList ∨ a :: c :: cs = "nan".toList ∨
        a :: c :: cs = []) := by
    intro a ha hor
    rcases hor with h | h | h | h | h
    · rw [show "—".toList = ['—'] from rfl] at h
      injection h with _ h2
      exact List.cons_ne_nil c cs h2
    · rw [show "-".toList = ['-'] from rfl] at h
      injection h with _ h2
      exact List.cons_ne_nil c cs h2
    · rw [show "--".toList = ['-', '-'] from rfl] at h
      injection h with _ h2
      injection h2 with h3 _
      subst h3; exact absurd hd (by decide)
    · rw [show "nan".toList = ['n', 'a', 'n'] from rfl] at h
      injection h with h1 _
      rcases ha with rfl | rfl | rfl <;> exact absurd h1 (by decide)
    · exact List.cons_ne_nil a (c :: cs) h
  have hs0 : searchSigned (c :: cs) = some (false, matchNumber (c :: cs)) := by
    simp [searchSigned, hd]
  have hsm : searchSigned ('-' :: c :: cs) = some (true, matchNumber (c :: cs)) := by
    simp [searchSigned, hd]
  have hsp : searchSigned ('+' :: c :: cs) = some (false, matchNumber (c :: cs)) := by
    simp [searchSigned, hd]
  have hsu : searchSigned ('−' :: c :: cs) = some (false, matchNumber (c :: cs)) := by
    simp [searchSigned, hd]
  rcases hmn : matchNumber (c :: cs) with ⟨v, sc⟩
  refine ⟨?_, ?_, ?_⟩
  · show tomNumKey (pyLowerL (pyStripL ('-' :: c :: cs))) =
      PyFloat.neg (tomNumKey (pyLowerL (pyStripL (c :: cs))))
    rw [hkey _ (hext '-' (Or.inl rfl)), hkey _ hfacts,
      tomNumKey_eval _ (hneS '-' (Or.inl rfl)) (hrep _ (hext '-' (Or.inl rfl))),
      tomNumKey_eval _ hne0 (hrep _ hfacts)]
    simp only [tomNumMatch, hsm, hs0, hmn, PyFloat.neg]
    split
    · simp only [if_true, Bool.false_eq_true, if_false, neg_mul]
    · simp only [if_true, Bool.false_eq_true, if_false, neg_mul]
  · show tomNumKey (pyLowerL (pyStripL ('+' :: c :: cs))) =
      tomNumKey (pyLowerL (pyStripL (c :: cs)))
    rw [hkey _ (hext '+' (Or.inr (Or.inl rfl))), hkey _ hfacts,
      tomNumKey_eval _ (hneS '+' (Or.inr (Or.inl rfl)))
        (hrep _ (hext '+' (Or.inr (Or.inl rfl)))),
      tomNumKey_eval _ hne0 (hrep _ hfacts)]
    simp only [tomNumMatch, hsp, hs0]
  · show tomNumKey (pyLowerL (pyStripL ('−' :: c :: cs))) =
      tomNumKey (pyLowerL (pyStripL (c :: cs)))
    rw [hkey _ (hext '−' (Or.inr (Or.inr rfl))), hkey _ hfacts,
      tomNumKey_eval _ (hneS '−' (Or.inr (Or.inr rfl)))
        (hrep _ (hext '−' (Or.inr (Or.inr rfl)))),
      tomNumKey_eval _ hne0 (hrep _ hfacts)]
    simp only [tomNumMatch, hsu, hs0]

/-- C5 (witness): the amended sign rule at the spec's own magnitude
`3.2m`: ASCII minus negates, plus is ignored. -/
theorem c5_witness :
    _to_millions_number (String.mk ('-' :: '3' :: ['.', '2', 'm'])) =
      PyFloat.neg (_to_millions_number (String.mk ('3' :: ['.', '2', 'm']))) ∧
    _to_millions_number (String.mk ('+' :: '3' :: ['.', '2', 'm'])) =
      _to_millions_number (String.mk ('3' :: ['.', '2', 'm'])) :=
  ⟨(c5_ascii_sign_only '3' ['.', '2', 'm'] (by decide) (by decide)).1,
   (c5_ascii_sign_only '3' ['.', '2', 'm'] (by decide) (by decide)).2.1⟩

/-- C5 (counterexample): the Unicode minus sign is NOT recognised: the
regex sign class is ASCII `[+-]` only, so `re.search` starts the match
after the `−` and `"−3.2m"` normalizes to `+3 200 000` instead of
`-3 200 000`. -/
theorem c5_counterexample :
    _to_millions_number "−3.2m" = .finite 3200000 ∧
    ¬ _to_millions_number "−3.2m" = .finite (-3200000) := by
  constructor
  · decide
  · decide

/-- C6 (counterexample): the normalizer uses `re.search`, not a full
match, so a numeric fragment embedded in otherwise non-matching text IS
extracted: `"abc12xyz"` normalizes to `12 000 000`, not `0`. -/
theorem c6_counterexample :
    _to_millions_number "abc12xyz" = .finite 12000000 ∧
    ¬ _to_millions_number "abc12xyz" = .finite 0 := by
  constructor
  · decide
  · decide

/-- C6 (amended): inputs with no digit at all (and no `n`/`N`, which could
form the `inf`/`nan` tokens that Python's `float` accepts) fail softly to
`0` without raising; inputs containing a digit are instead parsed from the
first embedded numeric fragment found by `re.search` (see the
counterexample). -/
theorem c6_digitless_soft_zero (s : String)
    (h : ∀ x ∈ s.toList, x.isDigit = false ∧ x ≠ 'n' ∧ x ≠ 'N') :
    _to_millions_number s = .finite 0 := by
  have hkey : ∀ x ∈ pyLowerL (pyStripL s.toList), x.isDigit = false ∧ x ≠ 'n' := by
    intro x hx
    obtain ⟨y, hy, hxy⟩ := List.mem_map.mp hx
    have hy' := h y (mem_of_mem_pyStripL _ y hy)
    subst hxy
    exact ⟨toLower_isDigit_false y hy'.1, toLower_ne_n y hy'.2.1 hy'.2.2⟩
  show tomNumKey (pyLowerL (pyStripL s.toList)) = .finite 0
  unfold tomNumKey
  split
  · rfl
  · have hsub : ∀ x ∈ preprocessKey (pyLowerL (pyStripL s.toList)),
        x.isDigit = false ∧ x ≠ 'n' := by
      intro x hx
      apply hkey
      unfold preprocessKey at hx
      have h1 := mem_of_mem_pyStripL _ x hx
      have h2 := mem_of_mem_replaceGo "usd".toList _ _ x h1
      have h3 := mem_of_mem_replaceGo ",".toList _ _ x h2
      exact mem_of_mem_replaceGo "$".toList _ _ x h3
    have hn : ∀ x ∈ preprocessKey (pyLowerL (pyStripL s.toList)), x ≠ 'n' :=
      fun x hx => (hsub x hx).2
    unfold tomNumMatch
    rw [searchSigned_eq_none _ (fun x hx => (hsub x hx).1)]
    unfold fallbackFloat
    rw [if_neg ?hinf, if_neg ?hninf, if_neg ?hnan]
    case hinf =>
      rintro (he | he | he | he) <;> exact hn 'n' (by rw [he]; decide) rfl
    case hninf =>
      rintro (he | he) <;> exact hn 'n' (by rw [he]; decide) rfl
    case hnan =>
      rintro (he | he | he) <;> exact hn 'n' (by rw [he]; decide) rfl

/-- C6 (witness): the spec's own example `"garbage"` (digit-free) fails
softly to `0`. -/
theorem c6_witness : _to_millions_number "garbage" = .finite 0 :=
  c6_digitless_soft_zero "garbage" (by decide)

/-- C7 (counterexample): the result is not always finite: `"inf"` contains
no digit, so the code falls back to `float("inf")`, which succeeds and
returns Infinity (likewise `"$nan"` yields NaN). -/
theorem c7_counterexample :
    _to_millions_number "inf" = .inf ∧ _to_millions_number "$nan" = .nan := by
  constructor
  · decide
  · decide

/-- C7 (amended): every input containing at least one digit normalizes to
a finite value (under the exact-arithmetic model, which does not model
float overflow); non-finite outputs can only come from digit-free inputs
whose fallback `float(s)` parses an `inf`/`infinity`/`nan` token (see the
counterexample). -/
theorem c7_digit_inputs_finite (s : String)
    (h : ∃ x ∈ s.toList, x.isDigit = true) :
    (_to_millions_number s).isFinite = true := by
  obtain ⟨x, hx, hdig⟩ := h
  have hb := isDigit_toNat x hdig
  have hx1 : x ∈ pyStripL s.toList :=
    mem_pyStripL_of_mem _ x hx (isPySpace_false_of_ge x (by omega))
  have hx2 : x ∈ pyLowerL (pyStripL s.toList) := by
    have hfix : x.toLower = x := toLower_of_isDigit x hdig
    unfold pyLowerL
    exact hfix ▸ List.mem_map_of_mem Char.toLower hx1
  show (tomNumKey (pyLowerL (pyStripL s.toList))).isFinite = true
  unfold tomNumKey
  split
  · rfl
  · have hx3 : x ∈ preprocessKey (pyLowerL (pyStripL s.toList)) := by
      unfold preprocessKey replaceL
      rw [show "$".toList = ['$'] from rfl, show ",".toList = [','] from rfl,
        show "usd".toList = ['u', 's', 'd'] from rfl]
      apply mem_pyStripL_of_mem _ x ?_ (isPySpace_false_of_ge x (by omega))
      apply mem_replaceGo_of_mem 'u' ['s', 'd'] _ _ x ?_ ?_
      · apply mem_replaceGo_of_mem ',' [] _ _ x ?_ ?_
        · apply mem_replaceGo_of_mem '$' [] _ _ x hx2 ?_
          intro hmem
          rcases List.mem_singleton.mp hmem with rfl
          exact absurd hdig (by decide)
        · intro hmem
          rcases List.mem_singleton.mp hmem with rfl
          exact absurd hdig (by decide)
      · intro hmem
        rcases List.mem_cons.mp hmem with rfl | hmem'
        · exact absurd hdig (by decide)
        · rcases List.mem_cons.mp hmem' with rfl | hmem''
          · exact absurd hdig (by decide)
          · rcases List.mem_singleton.mp hmem'' with rfl
            exact absurd hdig (by decide)
    unfold tomNumMatch
    have hsome := searchSigned_isSome _ ⟨x, hx3, hdig⟩
    obtain ⟨⟨neg, v, sc⟩, hres⟩ := Option.isSome_iff_exists.mp hsome
    rw [hres]
    rfl

/-- C7 (witness): an input with a digit — the spec's `"1,234"` — yields a
finite value. -/
theorem c7_witness : (_to_millions_number "1,234").isFinite = true :=
  c7_digit_inputs_finite "1,234" (by decide)

/-- C8 (confirmed): every string whose trimmed, lower-cased form is one of
the placeholders `""`, `"-"`, `"--"`, `"—"`, `"–"`, `"n/a"`, `"nan"`
normalizes to `0` (the first five via the explicit placeholder set of line
43, the en-dash and `"n/a"` via the digitless fallback in which `float`
raises and `0.0` is returned). -/
theorem c8_placeholders_zero (s : String)
    (h : pyLowerL (pyStripL s.toList) ∈
      [[], ['-'], ['-', '-'], "—".toList, "–".toList, "n/a".toList, "nan".toList]) :
    _to_millions_number s = .finite 0 := by
  show tomNumKey (pyLowerL (pyStripL s.toList)) = .finite 0
  simp only [List.mem_cons, List.not_mem_nil, or_false] at h
  rcases h with h | h | h | h | h | h | h <;> rw [h] <;> decide

/-- C8 (witness): the placeholder rule applied to `" N/A "`, which trims
and lower-cases to `"n/a"`. -/
theorem c8_witness : _to_millions_number " N/A " = .finite 0 :=
  c8_placeholders_zero " N/A " (by decide)

/-- C9 (confirmed): reshape completeness.  For a selected table processed
successfully, with `N` the number of rows whose date parses and `M` the
number of kept non-date columns, the long-form output has exactly `M × N`
records, and every record takes its instrument from one kept column name,
its date from one surviving row, and its flow from the normalizer applied
to that row's cell in that column. -/
theorem c9_reshape_completeness (pd : String → Option ℤ) (t : Table) (i : ℕ)
    (recs : List FlowRecord)
    (hi : t.cols.findIdx? (fun c => c == "Date") = some i)
    (h : processTable pd t = some recs) :
    recs.length = (keptColsOf t).length * (parsedRowsOf pd t i).length ∧
    ∀ r ∈ recs, r.etf ∈ keptColsOf t ∧
      ∃ p ∈ parsedRowsOf pd t i, r.date = p.1 ∧
        r.flow_usd = _to_millions_number
          (p.2.getD (t.cols.findIdx (fun c => c == r.etf)) "") := by
  unfold processTable at h
  rw [hi] at h
  simp only [Option.map_some'] at h
  replace h := Option.some.inj h
  subst h
  have hperm := List.perm_insertionSort dateLe (meltedOf pd t i)
  constructor
  · rw [hperm.length_eq]
    unfold meltedOf
    exact length_flatMap_const _ _ _
  · intro r hr
    have hr' := hperm.mem_iff.mp hr
    unfold meltedOf at hr'
    obtain ⟨c, hc, hrc⟩ := List.mem_flatMap.mp hr'
    obtain ⟨p, hp, hpe⟩ := List.mem_map.mp hrc
    subst hpe
    refine ⟨hc, p, hp, rfl, ?_⟩
    show _to_millions_number (p.2.getD (t.cols.findIdx (fun c' => c' == c)) "") =
      _to_millions_number (p.2.getD (t.cols.findIdx (fun c' => c' == c)) "")
    rfl

/-- C9 (witness): the count law `1 × 1` at a one-row, one-instrument
table. -/
theorem c9_witness :
    ([⟨1, "A", PyFloat.finite 5000000⟩] : List FlowRecord).length =
      (keptColsOf ⟨["Date", "A"], [["d1", "5"]]⟩).length *
      (parsedRowsOf pdTest ⟨["Date", "A"], [["d1", "5"]]⟩ 0).length :=
  (c9_reshape_completeness pdTest ⟨["Date", "A"], [["d1", "5"]]⟩ 0 _
    (by decide) (by decide)).1

/-- C10 (confirmed): every record of a successfully fetched dataset has an
instrument distinct from `"Date"` whose lower-cased name contains none of
the stoplisted substrings `total`, `aum`, `issuer`, `inception`, `fund`,
`cumulative`. -/
theorem c10_no_meta_columns (pd : String → Option ℤ)
    (outcomes : List FetchOutcome) (recs : List FlowRecord) (r : FlowRecord)
    (h : fetch_farside_flows pd outcomes = .ok recs) (hr : r ∈ recs) :
    r.etf ≠ "Date" ∧
    containsSub "total".toList (pyLowerL r.etf.toList) = false ∧
    containsSub "aum".toList (pyLowerL r.etf.toList) = false ∧
    containsSub "issuer".toList (pyLowerL r.etf.toList) = false ∧
    containsSub "inception".toList (pyLowerL r.etf.toList) = false ∧
    containsSub "fund".toList (pyLowerL r.etf.toList) = false ∧
    containsSub "cumulative".toList (pyLowerL r.etf.toList) = false := by
  obtain ⟨o, -, hs⟩ := fetchGo_ok pd outcomes none recs h
  obtain ⟨t, i, -, hrecs⟩ := attemptVariant_success_eq pd o recs hs
  subst hrecs
  have hr' := (List.perm_insertionSort dateLe (meltedOf pd t i)).mem_iff.mp hr
  unfold meltedOf at hr'
  obtain ⟨c, hc, hrc⟩ := List.mem_flatMap.mp hr'
  obtain ⟨p, -, hpe⟩ := List.mem_map.mp hrc
  subst hpe
  unfold keptColsOf at hc
  obtain ⟨-, hcond⟩ := List.mem_filter.mp hc
  rw [Bool.and_eq_true] at hcond
  obtain ⟨h1, h2⟩ := hcond
  unfold stoplistFree at h2
  simp only [Bool.not_eq_true', Bool.or_eq_false_iff] at h2
  obtain ⟨⟨⟨⟨⟨g1, g2⟩, g3⟩, g4⟩, g5⟩, g6⟩ := h2
  exact ⟨by simpa using h1, g1, g2, g3, g4, g5, g6⟩

/-- C10 (witness): the stoplist invariant at a concrete fetched record. -/
theorem c10_witness :
    (FlowRecord.mk 1 "A" (.finite 5000000)).etf ≠ "Date" ∧
    containsSub "total".toList (pyLowerL (FlowRecord.mk 1 "A" (.finite 5000000)).etf.toList) = false ∧
    containsSub "aum".toList (pyLowerL (FlowRecord.mk 1 "A" (.finite 5000000)).etf.toList) = false ∧
    containsSub "issuer".toList (pyLowerL (FlowRecord.mk 1 "A" (.finite 5000000)).etf.toList) = false ∧
    containsSub "inception".toList (pyLowerL (FlowRecord.mk 1 "A" (.finite 5000000)).etf.toList) = false ∧
    containsSub "fund".toList (pyLowerL (FlowRecord.mk 1 "A" (.finite 5000000)).etf.toList) = false ∧
    containsSub "cumulative".toList (pyLowerL (FlowRecord.mk 1 "A" (.finite 5000000)).etf.toList) = false :=
  c10_no_meta_columns pdTest [.ok [⟨["Date", "A"], [["d1", "5"]]⟩]]
    [⟨1, "A", .finite 5000000⟩] ⟨1, "A", .finite 5000000⟩ (by decide) (by decide)
